import Mathlib

/-!
# Colour lookup table effect (`effects/LUT.cpp`, `effects/LUT.h`)

A shallow embedding of the 1-D lookup table `C1DLUT`, the placeholder `C3DLUT`,
`CUBEReader::read` and the pixel loop of `LUT::GetFrame`, followed by the
properties established for them.

Conventions of the embedding:

* `float` values are exact rationals (`ℚ`); `fma(t, b - a, a)` is `t * (b - a) + a`
  without rounding. The section on rounded arithmetic repeats `intervalWidth` and
  `compute` with every `float` operation followed by a rounding function, `binary32`
  being the rounding of IEEE 754 single precision.
* `int` values are unbounded integers (`Int`); the conversion of a `float` to an
  `int` truncates toward zero.
* Reading a C array through an index outside the array has no defined result;
  every function that indexes returns an `Option`, with `none` standing for such
  a read.
* An `unsigned char` is a `Fin 256`.
-/

namespace openshot

/-! ## Data model -/

/-- A colour, `struct RGB { int R, G, B; }` (LUT.h:100-102). -/
structure RGB where
  R : Int
  G : Int
  B : Int
deriving DecidableEq

/-- One `unsigned char` of a pixel buffer. -/
abbrev Byte := Fin 256

/-- Conversion of a `float` to an `int`: truncation toward zero. -/
def floatToInt (x : ℚ) : Int :=
  if 0 ≤ x then ⌊x⌋ else ⌈x⌉

/-- Conversion of an `int` to an `unsigned char`: reduction modulo 256. -/
def intToByte (x : Int) : Byte :=
  ⟨(x % 256).toNat, by
    have h1 : 0 ≤ x % 256 := Int.emod_nonneg x (by decide)
    have h2 : x % 256 < 256 := Int.emod_lt_of_pos x (by decide)
    omega⟩

/-- Reading `target[k]` of a C array through an `int` index `k`: defined only for
`0 ≤ k < length`. -/
def readAt (target : List ℚ) (k : Int) : Option ℚ :=
  if 0 ≤ k then target[k.toNat]? else none

/-! ## `lerp` and `C1DLUT` -/

/-- The function `lerp` (LUT.cpp:181-183): `fma(t, b - a, a)`. -/
def lerp (a b t : ℚ) : ℚ :=
  t * (b - a) + a

namespace C1DLUT

/-- The helper `C1DLUT::intervalWidth` (LUT.h:111-113): `(b - a) / n`. -/
def intervalWidth (a b : ℚ) (n : Int) : ℚ :=
  (b - a) / (n : ℚ)

/-- The method `C1DLUT::compute` (LUT.cpp:189-194). The parameter `n` is not used by
the body. -/
def compute (source : Int) (_n : Int) (min intervalWidth : ℚ) (target : List ℚ) :
    Option ℚ :=
  let i : ℚ := ((source : ℚ) - min) / intervalWidth
  let i0 : Int := ⌊i⌋
  let i1 : Int := ⌈i⌉
  if i0 = i1 then readAt target i0
  else (readAt target i0).bind fun a => (readAt target i1).bind fun b => some (lerp a b i)

/-- The table indices `C1DLUT::compute` reads for a source value (LUT.cpp:190-193):
`i0` alone when `i0 == i1`, otherwise `i0` and `i1`. -/
def reads (source : Int) (min intervalWidth : ℚ) : List Int :=
  let i : ℚ := ((source : ℚ) - min) / intervalWidth
  let i0 : Int := ⌊i⌋
  let i1 : Int := ⌈i⌉
  if i0 = i1 then [i0] else [i0, i1]

/-- The constant `N` (LUT.h:115). -/
def N : Int := 1

/-- The constants `MIN_R`, `MIN_G`, `MIN_B` (LUT.h:116). -/
def MIN_R : ℚ := 0
def MIN_G : ℚ := 0
def MIN_B : ℚ := 0

/-- The constants `MAX_R`, `MAX_G`, `MAX_B` (LUT.h:117). -/
def MAX_R : ℚ := 255
def MAX_G : ℚ := 255
def MAX_B : ℚ := 255

/-- The constants `IVW_R`, `IVW_G`, `IVW_B` (LUT.h:118). -/
def IVW_R : ℚ := intervalWidth MIN_R MAX_R N
def IVW_G : ℚ := intervalWidth MIN_G MAX_G N
def IVW_B : ℚ := intervalWidth MIN_B MAX_B N

/-- The tables `R`, `G`, `B`, each `{ 0, 255 }` (LUT.h:119). -/
def R : List ℚ := [0, 255]
def G : List ℚ := [0, 255]
def B : List ℚ := [0, 255]

/-- The method `C1DLUT::lookup` (LUT.cpp:185-187); each `float` returned by `compute`
is converted to the `int` channel of the result. -/
def lookup (rgb : RGB) : Option RGB :=
  (compute rgb.R N MIN_R IVW_R R).bind fun r =>
  (compute rgb.G N MIN_G IVW_G G).bind fun g =>
  (compute rgb.B N MIN_B IVW_B B).bind fun b =>
  some ⟨floatToInt r, floatToInt g, floatToInt b⟩

end C1DLUT

/-! ## `C3DLUT`, `ILUT` and `CUBEReader` -/

namespace C3DLUT

/-- The method `C3DLUT::lookup` (LUT.cpp:196-198). The class has no data member
(LUT.h:124-126): the result is the constant `{0, 0, 0}`. -/
def lookup (_rgb : RGB) : RGB :=
  ⟨0, 0, 0⟩

end C3DLUT

/-- The two classes deriving from `ILUT` (LUT.h:104-126). Neither has state that
varies between instances. -/
inductive ILUT where
  | c1d
  | c3d
deriving DecidableEq

/-- Virtual dispatch of `ILUT::lookup`. -/
def ILUT.lookup : ILUT → RGB → Option RGB
  | ILUT.c1d, rgb => C1DLUT.lookup rgb
  | ILUT.c3d, rgb => some (C3DLUT.lookup rgb)

/-- The files a reader could consult: the text stored at each path, if any. -/
abbrev FileSystem := String → Option String

/-- The two failures the specification names for reading a LUT description. The
source raises neither. -/
inductive ReadFailure where
  | formatError
  | ioError
deriving DecidableEq

/-- The function `CUBEReader::read` (LUT.cpp:200-202): `return new C1DLUT;`. It opens
no file and does not look at `file`. -/
def CUBEReader.read (_fs : FileSystem) (_file : String) : Except ReadFailure ILUT :=
  Except.ok ILUT.c1d

/-! ## `LUT::GetFrame` -/

/-- Modelled from the spec: `EffectBase::constrain`, declared in `EffectBase.h`, which is
not among the sources. The specification has the final conversion to a channel clamp
to the range [0, 255]. -/
def constrain (color_value : Int) : Int :=
  if color_value < 0 then 0 else if color_value > 255 then 255 else color_value

/-- The body of the pixel loop (LUT.cpp:82-91) at offset `byte_index`. -/
def pixelBody (lookUpTable : ILUT) (pixels : List Byte) (byte_index : Nat) :
    Option (List Byte) :=
  pixels[byte_index]?.bind fun r =>
  pixels[byte_index + 1]?.bind fun g =>
  pixels[byte_index + 2]?.bind fun b =>
  let sourceColor : RGB := ⟨(r.val : Int), (g.val : Int), (b.val : Int)⟩
  (lookUpTable.lookup sourceColor).bind fun targetColor =>
  let pixels0 := pixels.set (byte_index + 0) (intToByte (constrain targetColor.R))
  let pixels1 := pixels0.set (byte_index + 1) (intToByte (constrain targetColor.G))
  let pixels2 := pixels1.set (byte_index + 2) (intToByte (constrain targetColor.B))
  some pixels2

/-- The pixel loop (LUT.cpp:80-92): `remaining` iterations are left, the next one at
offset `byte_index`, which advances by 4. -/
def pixelLoop (lookUpTable : ILUT) : Nat → Nat → List Byte → Option (List Byte)
  | 0, _, pixels => some pixels
  | remaining + 1, byte_index, pixels =>
    (pixelBody lookUpTable pixels byte_index).bind
      (pixelLoop lookUpTable remaining (byte_index + 4))

/-- The parts of a `QImage` the effect uses: `width()`, `height()` and `bits()`. -/
structure QImage where
  width : Nat
  height : Nat
  bits : List Byte

/-- The part of a `Frame` the effect uses: `GetImage()`, which may be null. -/
structure Frame where
  image : Option QImage

/-- The part of a `Keyframe` the effect uses: `GetValue(frame_number)`. -/
structure Keyframe where
  GetValue : Int → ℚ

/-- The method `LUT::GetFrame` (LUT.cpp:65-98). The member `lut` is the intensity
keyframe; the value read from it is assigned to `lut_value` and not used. -/
def LUT.GetFrame (fs : FileSystem) (lut : Keyframe) (frame : Frame) (frame_number : Int) :
    Option Frame :=
  match frame.image with
  | none => some frame
  | some frame_image =>
    match CUBEReader.read fs "lut.cube" with
    | Except.error _ => none
    | Except.ok lookUpTable =>
      let _lut_value : ℚ := lut.GetValue frame_number
      (pixelLoop lookUpTable (frame_image.width * frame_image.height) 0
        frame_image.bits).map
        fun pixels => ⟨some ⟨frame_image.width, frame_image.height, pixels⟩⟩

/-! ## Rounded arithmetic -/

/-- The integer nearest to a rational, a tie going to the even neighbour. -/
def roundHalfEven (x : ℚ) : Int :=
  if x - (⌊x⌋ : ℚ) < 1 / 2 then ⌊x⌋
  else if 1 / 2 < x - (⌊x⌋ : ℚ) then ⌊x⌋ + 1
  else if ⌊x⌋ % 2 = 0 then ⌊x⌋ else ⌊x⌋ + 1

/-- The `float` value (IEEE 754 binary32: 24-bit significand, round to nearest, ties to
even) nearest to a rational. The exponent is left unbounded: overflow and subnormal
results are outside what this function describes. -/
def binary32 (q : ℚ) : ℚ :=
  if q = 0 then 0
  else (roundHalfEven (q / 2 ^ (Int.log 2 |q| - 23)) : ℚ) * 2 ^ (Int.log 2 |q| - 23)

namespace C1DLUT

/-- The helper `C1DLUT::intervalWidth` (LUT.h:111-113) with the result of every `float`
operation rounded by `fl`. -/
def intervalWidthRounded (fl : ℚ → ℚ) (a b : ℚ) (n : Int) : ℚ :=
  fl (fl (b - a) / fl (n : ℚ))

/-- The function `lerp` (LUT.cpp:181-183) with rounding `fl`: the difference is rounded,
the fused multiply-add is rounded once. -/
def lerpRounded (fl : ℚ → ℚ) (a b t : ℚ) : ℚ :=
  fl (t * fl (b - a) + a)

/-- The method `C1DLUT::compute` (LUT.cpp:189-194) with the result of every `float`
operation rounded by `fl`. -/
def computeRounded (fl : ℚ → ℚ) (source : Int) (_n : Int) (min intervalWidth : ℚ)
    (target : List ℚ) : Option ℚ :=
  let i : ℚ := fl (fl (fl (source : ℚ) - min) / intervalWidth)
  let i0 : Int := ⌊i⌋
  let i1 : Int := ⌈i⌉
  if i0 = i1 then readAt target i0
  else (readAt target i0).bind fun a =>
    (readAt target i1).bind fun b => some (lerpRounded fl a b i)

/-- The table indices `computeRounded` reads. -/
def readsRounded (fl : ℚ → ℚ) (source : Int) (min intervalWidth : ℚ) : List Int :=
  let i : ℚ := fl (fl (fl (source : ℚ) - min) / intervalWidth)
  let i0 : Int := ⌊i⌋
  let i1 : Int := ⌈i⌉
  if i0 = i1 then [i0] else [i0, i1]

end C1DLUT

/-! ## Files used as test inputs -/

/-- A file system holding a single file. -/
def oneFile (path text : String) : FileSystem :=
  fun p => if p = path then some text else none

/-- A LUT description that declares `LUT_1D_SIZE 4` and supplies three data rows. -/
def shortCube : String :=
  "LUT_1D_SIZE 4\n0.0 0.0 0.0\n0.5 0.5 0.5\n1.0 1.0 1.0\n"

/-! ## Pixel-wise reading of the loop -/

/-- The three colour bytes the loop body stores (LUT.cpp:86-91) for the three colour
bytes it loads (LUT.cpp:83). -/
def pixelMap (lookUpTable : ILUT) (r g b : Byte) : Option (Byte × Byte × Byte) :=
  (lookUpTable.lookup ⟨(r.val : Int), (g.val : Int), (b.val : Int)⟩).map fun targetColor =>
    (intToByte (constrain targetColor.R), intToByte (constrain targetColor.G),
      intToByte (constrain targetColor.B))

/-- The first `count` pixels of a buffer rewritten one after the other through
`pixelMap`, the fourth byte of each pixel and the rest of the buffer kept. -/
def mapPixels (lookUpTable : ILUT) : Nat → List Byte → Option (List Byte)
  | 0, pixels => some pixels
  | count + 1, r :: g :: b :: a :: rest =>
    (pixelMap lookUpTable r g b).bind fun t =>
      (mapPixels lookUpTable count rest).map fun out => t.1 :: t.2.1 :: t.2.2 :: a :: out
  | _ + 1, _ => none

end openshot

/-! ## Auxiliary facts -/

namespace openshot

theorem readAt_of_bounds (target : List ℚ) (k : Int) (h0 : 0 ≤ k)
    (h1 : k.toNat < target.length) : readAt target k = some (target.get ⟨k.toNat, h1⟩) := by
  simp [readAt, h0, List.getElem?_eq_getElem h1]

theorem readAt_isSome_iff (target : List ℚ) (k : Int) :
    (readAt target k).isSome ↔ 0 ≤ k ∧ k < (target.length : Int) := by
  unfold readAt
  by_cases h0 : 0 ≤ k
  · simp only [h0, if_true, true_and]
    rw [Option.isSome_iff_ne_none, ne_eq, List.getElem?_eq_none_iff]
    omega
  · simp [h0]

theorem floatToInt_intCast (s : Int) : floatToInt (s : ℚ) = s := by
  unfold floatToInt
  split <;> simp

namespace C1DLUT

theorem compute_isSome_iff (source n : Int) (min w : ℚ) (target : List ℚ) :
    (compute source n min w target).isSome ↔
      ∀ k ∈ reads source min w, 0 ≤ k ∧ k < (target.length : Int) := by
  unfold compute reads
  simp only
  split
  · simp [readAt_isSome_iff]
  · simp only [List.mem_cons, List.mem_singleton, forall_eq_or_imp, forall_eq, List.not_mem_nil]
    rw [← readAt_isSome_iff, ← readAt_isSome_iff]
    cases h0 : readAt target ⌊((source : ℚ) - min) / w⌋ <;>
    cases h1 : readAt target ⌈((source : ℚ) - min) / w⌉ <;> simp

/-- Value of `compute` on the built-in table for a channel value in [0, 255]. -/
theorem compute_builtin (s : Int) (h0 : 0 ≤ s) (h1 : s ≤ 255) :
    compute s N 0 (intervalWidth 0 255 N) [0, 255] = some (s : ℚ) := by
  have hw : intervalWidth 0 255 N = 255 := by norm_num [intervalWidth, N]
  have hs0 : (0 : ℚ) ≤ s := by exact_mod_cast h0
  have hs1 : (s : ℚ) ≤ 255 := by exact_mod_cast h1
  rw [hw]
  unfold compute
  simp only [sub_zero]
  rcases eq_or_lt_of_le h0 with rfl | hpos
  · simp [readAt]
  rcases eq_or_lt_of_le h1 with rfl | hlt
  · norm_num [readAt]
  have hp : (0 : ℚ) < s := by exact_mod_cast hpos
  have hl : (s : ℚ) < 255 := by exact_mod_cast hlt
  have hf : ⌊(s : ℚ) / 255⌋ = 0 := by
    rw [Int.floor_eq_iff]
    constructor
    · simp; positivity
    · simp; rw [div_lt_one (by norm_num)]; exact hl
  have hc : ⌈(s : ℚ) / 255⌉ = 1 := by
    rw [Int.ceil_eq_iff]
    constructor
    · simp; positivity
    · simp; rw [div_le_one (by norm_num)]; exact hs1
  rw [hf, hc]
  simp [readAt, lerp]

end C1DLUT
end openshot

namespace openshot
namespace C1DLUT

/-- C1 (identity table): for every colour whose three channels lie in [0, 255],
`C1DLUT::lookup` on the built-in table (N = 1, domain [0, 255], table {0, 255} per
channel) returns that same colour, with exact arithmetic and truncating conversion. -/
theorem lookup_identity (rgb : RGB) (hR : 0 ≤ rgb.R ∧ rgb.R ≤ 255)
    (hG : 0 ≤ rgb.G ∧ rgb.G ≤ 255) (hB : 0 ≤ rgb.B ∧ rgb.B ≤ 255) :
    lookup rgb = some rgb := by
  have eR := compute_builtin rgb.R hR.1 hR.2
  have eG := compute_builtin rgb.G hG.1 hG.2
  have eB := compute_builtin rgb.B hB.1 hB.2
  unfold lookup IVW_R IVW_G IVW_B MIN_R MIN_G MIN_B MAX_R MAX_G MAX_B R G B
  rw [eR, eG, eB]
  simp [floatToInt_intCast]

theorem lookup_identity_witness :
    lookup ⟨0, 128, 255⟩ = some ⟨0, 128, 255⟩ :=
  lookup_identity ⟨0, 128, 255⟩ (by decide) (by decide) (by decide)

end C1DLUT
end openshot

namespace openshot
namespace C1DLUT

/-- What `compute` returns between two nodes: the third argument handed to `lerp` is
the whole fractional index `i`, so the result is `table[i0] + (table[i1] - table[i0]) * i`. -/
theorem compute_between_nodes (source n : Int) (min w : ℚ) (table : List ℚ) (a b : ℚ)
    (hne : ⌊((source : ℚ) - min) / w⌋ ≠ ⌈((source : ℚ) - min) / w⌉)
    (ha : readAt table ⌊((source : ℚ) - min) / w⌋ = some a)
    (hb : readAt table ⌈((source : ℚ) - min) / w⌉ = some b) :
    compute source n min w table = some (a + (b - a) * (((source : ℚ) - min) / w)) := by
  unfold compute
  simp only [hne, if_false, ha, hb, Option.some_bind, lerp]
  congr 1
  ring

/-- C2 (linear interpolation between nodes), evaluated on the code: with N = 2, domain
[0, 4], interval width 2 and table {0, 10, 20}, the source value 3 has fractional index
3/2, `i0 = 1`, `i1 = 2`; `compute` returns 25, whereas
`table[i0] + (table[i1] - table[i0]) * (i - i0)` is 15. -/
theorem compute_interpolation_at_three :
    intervalWidth 0 4 2 = 2 ∧
    ⌊(((3 : Int) : ℚ) - 0) / 2⌋ = 1 ∧ ⌈(((3 : Int) : ℚ) - 0) / 2⌉ = 2 ∧
    compute 3 2 0 2 [0, 10, 20] = some 25 ∧
    (10 : ℚ) + (20 - 10) * ((((3 : Int) : ℚ) - 0) / 2 - 1) = 15 := by
  have hf : ⌊(((3 : Int) : ℚ) - 0) / 2⌋ = 1 := by
    rw [Int.floor_eq_iff]; norm_num
  have hc : ⌈(((3 : Int) : ℚ) - 0) / 2⌉ = 2 := by
    rw [Int.ceil_eq_iff]; norm_num
  refine ⟨by norm_num [intervalWidth], hf, hc, ?_, by norm_num⟩
  rw [compute_between_nodes 3 2 0 2 [0, 10, 20] 10 20 (by rw [hf, hc]; decide)
    (by rw [hf]; rfl) (by rw [hc]; rfl)]
  norm_num

/-- Bounds of the fractional index for a source inside the domain. -/
theorem index_bounds (n : Int) (hn : 1 ≤ n) (min max : ℚ) (hmm : min < max)
    (source : Int) (hlo : min ≤ (source : ℚ)) (hhi : (source : ℚ) ≤ max) :
    0 ≤ ((source : ℚ) - min) / intervalWidth min max n ∧
      ((source : ℚ) - min) / intervalWidth min max n ≤ (n : ℚ) := by
  have hnq : (0 : ℚ) < (n : ℚ) := by exact_mod_cast (by omega : (0 : Int) < n)
  have hd : (0 : ℚ) < max - min := by linarith
  have hw : 0 < intervalWidth min max n := div_pos hd hnq
  constructor
  · exact div_nonneg (by linarith) hw.le
  · rw [div_le_iff₀ hw]
    unfold intervalWidth
    rw [mul_div_cancel₀ _ hnq.ne']
    linarith

/-- Inside the domain the two indices satisfy `0 ≤ i0 ≤ i1 ≤ n`. -/
theorem floor_ceil_bounds (n : Int) (hn : 1 ≤ n) (min max : ℚ) (hmm : min < max)
    (source : Int) (hlo : min ≤ (source : ℚ)) (hhi : (source : ℚ) ≤ max) :
    0 ≤ ⌊((source : ℚ) - min) / intervalWidth min max n⌋ ∧
      ⌊((source : ℚ) - min) / intervalWidth min max n⌋ ≤
        ⌈((source : ℚ) - min) / intervalWidth min max n⌉ ∧
      ⌈((source : ℚ) - min) / intervalWidth min max n⌉ ≤ n := by
  obtain ⟨h0, h1⟩ := index_bounds n hn min max hmm source hlo hhi
  exact ⟨Int.floor_nonneg.mpr h0, Int.floor_le_ceil _, Int.ceil_le.mpr h1⟩

/-- Inside the domain every index read lies in [0, n]. -/
theorem reads_within (n : Int) (hn : 1 ≤ n) (min max : ℚ) (hmm : min < max)
    (source : Int) (hlo : min ≤ (source : ℚ)) (hhi : (source : ℚ) ≤ max) :
    ∀ k ∈ reads source min (intervalWidth min max n), 0 ≤ k ∧ k ≤ n := by
  obtain ⟨hf, hfc, hc⟩ := floor_ceil_bounds n hn min max hmm source hlo hhi
  intro k hk
  unfold reads at hk
  simp only at hk
  split at hk
  · simp only [List.mem_singleton] at hk
    subst hk
    exact ⟨hf, le_trans hfc hc⟩
  · simp only [List.mem_cons, List.mem_singleton, List.not_mem_nil, or_false] at hk
    rcases hk with rfl | rfl
    · exact ⟨hf, le_trans hfc hc⟩
    · exact ⟨le_trans hf hfc, hc⟩

/-- C4 (boundary at domain_max, as amended): with the arithmetic taken as exact, for
N ≥ 1, a domain `min < max`, interval width `(max - min) / N` and a source with
`min ≤ source ≤ max` (the case `source = max` included), `compute` uses indices with
`0 ≤ i0 ≤ i1 ≤ N`, reads only indices in [0, N], and returns a value on every table of
N + 1 entries; channel value 255 on the built-in table reads index 1 only. -/
theorem compute_reads_in_table (n : Int) (hn : 1 ≤ n) (min max : ℚ) (hmm : min < max)
    (source : Int) (hlo : min ≤ (source : ℚ)) (hhi : (source : ℚ) ≤ max) :
    (0 ≤ ⌊((source : ℚ) - min) / intervalWidth min max n⌋ ∧
      ⌊((source : ℚ) - min) / intervalWidth min max n⌋ ≤
        ⌈((source : ℚ) - min) / intervalWidth min max n⌉ ∧
      ⌈((source : ℚ) - min) / intervalWidth min max n⌉ ≤ n) ∧
    (∀ k ∈ reads source min (intervalWidth min max n), 0 ≤ k ∧ k ≤ n) ∧
    (∀ table : List ℚ, (table.length : Int) = n + 1 →
      (compute source n min (intervalWidth min max n) table).isSome) ∧
    reads 255 MIN_R IVW_R = [1] := by
  have hreads := reads_within n hn min max hmm source hlo hhi
  refine ⟨floor_ceil_bounds n hn min max hmm source hlo hhi, hreads, ?_, ?_⟩
  · intro table hlen
    rw [compute_isSome_iff]
    intro k hk
    have := hreads k hk
    omega
  · have hw : IVW_R = 255 := by norm_num [IVW_R, MIN_R, MAX_R, intervalWidth, N]
    rw [hw]
    unfold reads MIN_R
    norm_num

theorem compute_reads_in_table_witness :
    (0 ≤ ⌊(((4 : Int) : ℚ) - 0) / intervalWidth 0 4 2⌋ ∧
      ⌊(((4 : Int) : ℚ) - 0) / intervalWidth 0 4 2⌋ ≤
        ⌈(((4 : Int) : ℚ) - 0) / intervalWidth 0 4 2⌉ ∧
      ⌈(((4 : Int) : ℚ) - 0) / intervalWidth 0 4 2⌉ ≤ 2) ∧
    (∀ k ∈ reads 4 0 (intervalWidth 0 4 2), 0 ≤ k ∧ k ≤ 2) ∧
    (∀ table : List ℚ, (table.length : Int) = 2 + 1 →
      (compute 4 2 0 (intervalWidth 0 4 2) table).isSome) ∧
    reads 255 MIN_R IVW_R = [1] :=
  compute_reads_in_table 2 (by decide) 0 4 (by norm_num) 4 (by norm_num) (by norm_num)

end C1DLUT
end openshot

namespace openshot
namespace C1DLUT

theorem floor_mem_reads (source : Int) (min w : ℚ) :
    ⌊((source : ℚ) - min) / w⌋ ∈ reads source min w := by
  unfold reads
  simp only
  split <;> simp

theorem ceil_mem_reads (source : Int) (min w : ℚ) :
    ⌈((source : ℚ) - min) / w⌉ ∈ reads source min w := by
  unfold reads
  simp only
  split
  · rename_i h
    simp [h]
  · simp

/-- On the built-in table the indices read stay in [0, N] exactly for channel values
in [0, 255]. -/
theorem reads_builtin_iff (s : Int) :
    (∀ k ∈ reads s 0 (intervalWidth 0 255 N), 0 ≤ k ∧ k ≤ N) ↔ 0 ≤ s ∧ s ≤ 255 := by
  constructor
  · intro h
    have hw : intervalWidth 0 255 N = 255 := by norm_num [intervalWidth, N]
    have hf := (h _ (floor_mem_reads s 0 (intervalWidth 0 255 N))).1
    have hc := (h _ (ceil_mem_reads s 0 (intervalWidth 0 255 N))).2
    rw [hw] at hf hc
    rw [Int.floor_nonneg, sub_zero] at hf
    have hc1 : ((s : ℚ) - 0) / 255 ≤ ((1 : Int) : ℚ) := Int.ceil_le.mp hc
    rw [sub_zero, div_le_iff₀ (by norm_num)] at hc1
    have hs0 : (0 : ℚ) ≤ (s : ℚ) := by
      by_contra hneg
      push_neg at hneg
      have : (s : ℚ) / 255 < 0 := div_neg_of_neg_of_pos hneg (by norm_num)
      linarith
    have hs1 : (s : ℚ) ≤ 255 := by
      have : (s : ℚ) ≤ 1 * 255 := by exact_mod_cast hc1
      linarith
    exact ⟨by exact_mod_cast hs0, by exact_mod_cast hs1⟩
  · rintro ⟨h0, h1⟩
    exact reads_within N (by decide) 0 255 (by norm_num) s (by exact_mod_cast h0)
      (by exact_mod_cast h1)

/-- On the built-in table `compute` has a result exactly for channel values in
[0, 255]. -/
theorem compute_builtin_isSome_iff (s : Int) :
    (compute s N 0 (intervalWidth 0 255 N) [0, 255]).isSome ↔ 0 ≤ s ∧ s ≤ 255 := by
  rw [compute_isSome_iff, ← reads_builtin_iff]
  constructor
  · intro h k hk
    have := h k hk
    simp only [List.length_cons, List.length_nil] at this
    unfold N
    omega
  · intro h k hk
    have := h k hk
    simp only [List.length_cons, List.length_nil]
    unfold N at this
    omega

/-- The lookup on the built-in table has a result exactly for colours whose three
channels lie in [0, 255]. -/
theorem lookup_isSome_iff (rgb : RGB) :
    (lookup rgb).isSome ↔
      (0 ≤ rgb.R ∧ rgb.R ≤ 255) ∧ (0 ≤ rgb.G ∧ rgb.G ≤ 255) ∧ (0 ≤ rgb.B ∧ rgb.B ≤ 255) := by
  rw [← compute_builtin_isSome_iff rgb.R, ← compute_builtin_isSome_iff rgb.G,
    ← compute_builtin_isSome_iff rgb.B]
  unfold lookup IVW_R IVW_G IVW_B MIN_R MIN_G MIN_B MAX_R MAX_G MAX_B R G B
  cases compute rgb.R N 0 (intervalWidth 0 255 N) [0, 255] <;>
  cases compute rgb.G N 0 (intervalWidth 0 255 N) [0, 255] <;>
  cases compute rgb.B N 0 (intervalWidth 0 255 N) [0, 255] <;> simp

/-- C5 (as amended): `C1DLUT::lookup` performs no clamping. It returns a colour exactly
for the colours whose three channels lie in [0, 255]; for those, and only for those,
every index `compute` reads lies in [0, N]. -/
theorem lookup_defined_iff (rgb : RGB) :
    ((lookup rgb).isSome ↔
      (0 ≤ rgb.R ∧ rgb.R ≤ 255) ∧ (0 ≤ rgb.G ∧ rgb.G ≤ 255) ∧ (0 ≤ rgb.B ∧ rgb.B ≤ 255)) ∧
    (((∀ k ∈ reads rgb.R MIN_R IVW_R, 0 ≤ k ∧ k ≤ N) ∧
        (∀ k ∈ reads rgb.G MIN_G IVW_G, 0 ≤ k ∧ k ≤ N) ∧
        (∀ k ∈ reads rgb.B MIN_B IVW_B, 0 ≤ k ∧ k ≤ N)) ↔
      (0 ≤ rgb.R ∧ rgb.R ≤ 255) ∧ (0 ≤ rgb.G ∧ rgb.G ≤ 255) ∧ (0 ≤ rgb.B ∧ rgb.B ≤ 255)) := by
  refine ⟨lookup_isSome_iff rgb, ?_⟩
  unfold IVW_R IVW_G IVW_B MIN_R MIN_G MIN_B MAX_R MAX_G MAX_B
  rw [reads_builtin_iff, reads_builtin_iff, reads_builtin_iff]

/-- C5 (as stated) fails: the channel value 256 makes `compute` read index 2 of the
two-entry table, and -1 makes it read index -1; `lookup` has no result for either. -/
theorem lookup_outside_domain :
    N = 1 ∧ reads 256 MIN_R IVW_R = [1, 2] ∧ lookup ⟨256, 0, 0⟩ = none ∧
    reads (-1) MIN_R IVW_R = [-1, 0] ∧ lookup ⟨-1, 0, 0⟩ = none := by
  have hw : IVW_R = 255 := by norm_num [IVW_R, MIN_R, MAX_R, intervalWidth, N]
  have hf1 : ⌊(((256 : Int) : ℚ) - 0) / 255⌋ = 1 := by
    rw [Int.floor_eq_iff]; norm_num
  have hc1 : ⌈(((256 : Int) : ℚ) - 0) / 255⌉ = 2 := by
    rw [Int.ceil_eq_iff]; norm_num
  have hf2 : ⌊(((-1 : Int) : ℚ) - 0) / 255⌋ = -1 := by
    rw [Int.floor_eq_iff]; norm_num
  have hc2 : ⌈(((-1 : Int) : ℚ) - 0) / 255⌉ = 0 := by
    rw [Int.ceil_eq_iff]; norm_num
  have n1 : lookup ⟨256, 0, 0⟩ = none := by
    rw [← Option.not_isSome_iff_eq_none, lookup_isSome_iff]; decide
  have n2 : lookup ⟨-1, 0, 0⟩ = none := by
    rw [← Option.not_isSome_iff_eq_none, lookup_isSome_iff]; decide
  refine ⟨rfl, ?_, ?_, ?_, ?_⟩
  · rw [hw]; unfold reads MIN_R; simp only [hf1, hc1]; decide
  · exact n1
  · rw [hw]; unfold reads MIN_R; simp only [hf2, hc2]; decide
  · exact n2

end C1DLUT
end openshot

namespace openshot

/-- One iteration of the loop at the end of an already processed part `done`. -/
theorem pixelBody_append (lookUpTable : ILUT) (done rest : List Byte) (r g b a : Byte) :
    pixelBody lookUpTable (done ++ r :: g :: b :: a :: rest) done.length =
      (pixelMap lookUpTable r g b).map fun t =>
        (done ++ [t.1, t.2.1, t.2.2, a]) ++ rest := by
  unfold pixelBody pixelMap
  have e0 : (done ++ r :: g :: b :: a :: rest)[done.length]? = some r := by
    rw [List.getElem?_append_right (le_refl _)]; simp
  have e1 : (done ++ r :: g :: b :: a :: rest)[done.length + 1]? = some g := by
    rw [List.getElem?_append_right (by omega)]; simp
  have e2 : (done ++ r :: g :: b :: a :: rest)[done.length + 2]? = some b := by
    rw [List.getElem?_append_right (by omega)]; simp
  rw [e0, e1, e2]
  simp only [Option.some_bind]
  cases lookUpTable.lookup ⟨(r.val : Int), (g.val : Int), (b.val : Int)⟩ with
  | none => rfl
  | some targetColor =>
    simp only [Option.some_bind, Option.map_some']
    rw [List.set_append_right _ _ (by omega), List.set_append_right _ _ (by simp),
      List.set_append_right _ _ (by simp)]
    simp

/-- The loop started behind an already processed part rewrites the remaining pixels
one by one. -/
theorem pixelLoop_append (lookUpTable : ILUT) (count : Nat) :
    ∀ (done pixels : List Byte), 4 * count ≤ pixels.length →
      pixelLoop lookUpTable count done.length (done ++ pixels) =
        (mapPixels lookUpTable count pixels).map fun out => done ++ out := by
  induction count with
  | zero => intro done pixels _; simp [pixelLoop, mapPixels]
  | succ count ih =>
    intro done pixels hlen
    match pixels, hlen with
    | r :: g :: b :: a :: rest, hlen =>
      have hrest : 4 * count ≤ rest.length := by
        simp only [List.length_cons] at hlen; omega
      unfold pixelLoop mapPixels
      rw [pixelBody_append]
      cases pixelMap lookUpTable r g b with
      | none => rfl
      | some t =>
        simp only [Option.map_some', Option.some_bind]
        have hl : (done ++ [t.1, t.2.1, t.2.2, a]).length = done.length + 4 := by simp
        rw [← hl, ih _ rest hrest]
        cases mapPixels lookUpTable count rest <;> simp
    | [], hlen => simp at hlen
    | [_], hlen => simp only [List.length_cons, List.length_nil] at hlen; omega
    | [_, _], hlen => simp only [List.length_cons, List.length_nil] at hlen; omega
    | [_, _, _], hlen => simp only [List.length_cons, List.length_nil] at hlen; omega

/-- The loop on a whole buffer is the pixel-wise rewriting of its first `count` pixels. -/
theorem pixelLoop_eq_mapPixels (lookUpTable : ILUT) (count : Nat) (pixels : List Byte)
    (hlen : 4 * count ≤ pixels.length) :
    pixelLoop lookUpTable count 0 pixels = mapPixels lookUpTable count pixels := by
  have := pixelLoop_append lookUpTable count [] pixels hlen
  simpa using this

end openshot

namespace openshot

/-- Every table returns a colour for a colour read from three bytes. -/
theorem pixelMap_isSome (lookUpTable : ILUT) (r g b : Byte) :
    (pixelMap lookUpTable r g b).isSome := by
  unfold pixelMap
  rw [Option.isSome_map']
  cases lookUpTable with
  | c1d =>
    show (C1DLUT.lookup _).isSome
    rw [C1DLUT.lookup_isSome_iff]
    have hr := r.isLt
    have hg := g.isLt
    have hb := b.isLt
    simp only
    omega
  | c3d => rfl

/-- The pixel-wise rewriting has a result on every buffer holding `count` pixels. -/
theorem mapPixels_isSome (lookUpTable : ILUT) (count : Nat) :
    ∀ pixels : List Byte, 4 * count ≤ pixels.length →
      (mapPixels lookUpTable count pixels).isSome := by
  induction count with
  | zero => intro pixels _; rfl
  | succ count ih =>
    intro pixels hlen
    match pixels, hlen with
    | r :: g :: b :: a :: rest, hlen =>
      have hrest : 4 * count ≤ rest.length := by
        simp only [List.length_cons] at hlen; omega
      unfold mapPixels
      obtain ⟨t, ht⟩ := Option.isSome_iff_exists.mp (pixelMap_isSome lookUpTable r g b)
      obtain ⟨out, hout⟩ := Option.isSome_iff_exists.mp (ih rest hrest)
      simp [ht, hout]
    | [], hlen => simp at hlen
    | [_], hlen => simp only [List.length_cons, List.length_nil] at hlen; omega
    | [_, _], hlen => simp only [List.length_cons, List.length_nil] at hlen; omega
    | [_, _, _], hlen => simp only [List.length_cons, List.length_nil] at hlen; omega

/-- The pixel-wise rewriting keeps the length, every fourth byte and everything behind
the first `count` pixels. -/
theorem mapPixels_keeps (lookUpTable : ILUT) (count : Nat) :
    ∀ pixels out : List Byte, mapPixels lookUpTable count pixels = some out →
      out.length = pixels.length ∧
        ∀ j, (j % 4 = 3 ∨ 4 * count ≤ j) → out[j]? = pixels[j]? := by
  induction count with
  | zero =>
    intro pixels out h
    simp only [mapPixels, Option.some.injEq] at h
    subst h
    exact ⟨rfl, fun _ _ => rfl⟩
  | succ count ih =>
    intro pixels out h
    match pixels, h with
    | r :: g :: b :: a :: rest, h =>
      unfold mapPixels at h
      cases ht : pixelMap lookUpTable r g b with
      | none => simp [ht] at h
      | some t =>
        cases ho : mapPixels lookUpTable count rest with
        | none => simp [ht, ho] at h
        | some out1 =>
          simp only [ht, ho, Option.some_bind, Option.map_some', Option.some.injEq] at h
          subst h
          obtain ⟨hl, hk⟩ := ih rest out1 ho
          refine ⟨by simp [hl], ?_⟩
          intro j hj
          match j, hj with
          | 0, hj => omega
          | 1, hj => omega
          | 2, hj => omega
          | 3, _ => simp
          | j + 4, hj =>
            simp only [List.getElem?_cons_succ]
            apply hk
            omega
    | [], h => simp [mapPixels] at h
    | [_], h => simp [mapPixels] at h
    | [_, _], h => simp [mapPixels] at h
    | [_, _, _], h => simp [mapPixels] at h

end openshot

namespace openshot

/-- The pixel-wise rewriting of a concatenation, the first part holding exactly
`count` pixels. -/
theorem mapPixels_append (lookUpTable : ILUT) (count more : Nat) :
    ∀ a b : List Byte, a.length = 4 * count →
      mapPixels lookUpTable (count + more) (a ++ b) =
        (mapPixels lookUpTable count a).bind fun a1 =>
          (mapPixels lookUpTable more b).map fun b1 => a1 ++ b1 := by
  induction count with
  | zero =>
    intro a b ha
    have : a = [] := List.length_eq_zero.mp (by omega)
    subst this
    cases h : mapPixels lookUpTable more b <;> simp [mapPixels, h]
  | succ count ih =>
    intro a b ha
    match a, ha with
    | r :: g :: b0 :: al :: rest, ha =>
      have hrest : rest.length = 4 * count := by
        simp only [List.length_cons] at ha; omega
      have e : count + 1 + more = (count + more) + 1 := by omega
      rw [e]
      simp only [List.cons_append, mapPixels]
      have ih1 := ih rest b hrest
      simp only [List.append_eq] at ih1 ⊢
      rw [ih1]
      cases pixelMap lookUpTable r g b0 <;>
      cases mapPixels lookUpTable count rest <;>
      cases mapPixels lookUpTable more b <;> simp
    | [], ha => simp at ha
    | [_], ha => simp only [List.length_cons, List.length_nil] at ha; omega
    | [_, _], ha => simp only [List.length_cons, List.length_nil] at ha; omega
    | [_, _, _], ha => simp only [List.length_cons, List.length_nil] at ha; omega

/-- In the result of the pixel-wise rewriting the colour bytes of pixel `k` are the
image under `pixelMap` of the colour bytes of pixel `k` of the input. -/
theorem mapPixels_pixel (lookUpTable : ILUT) (count : Nat) :
    ∀ pixels out : List Byte, mapPixels lookUpTable count pixels = some out →
      ∀ k, k < count → ∀ r g b : Byte, pixels[4 * k]? = some r →
        pixels[4 * k + 1]? = some g → pixels[4 * k + 2]? = some b →
        ∃ t, pixelMap lookUpTable r g b = some t ∧ out[4 * k]? = some t.1 ∧
          out[4 * k + 1]? = some t.2.1 ∧ out[4 * k + 2]? = some t.2.2 := by
  induction count with
  | zero => intro _ _ _ k hk; omega
  | succ count ih =>
    intro pixels out h k hk r g b hr hg hb
    match pixels, h with
    | r0 :: g0 :: b0 :: a :: rest, h =>
      unfold mapPixels at h
      cases ht : pixelMap lookUpTable r0 g0 b0 with
      | none => simp [ht] at h
      | some t =>
        cases ho : mapPixels lookUpTable count rest with
        | none => simp [ht, ho] at h
        | some out1 =>
          simp only [ht, ho, Option.some_bind, Option.map_some', Option.some.injEq] at h
          subst h
          match k, hk with
          | 0, _ =>
            simp only [Nat.mul_zero, Nat.zero_add, List.getElem?_cons_zero,
              List.getElem?_cons_succ, Option.some.injEq] at hr hg hb
            subst hr hg hb
            exact ⟨t, ht, by simp, by simp, by simp⟩
          | k + 1, hk =>
            have e0 : 4 * (k + 1) = 4 * k + 3 + 1 := by omega
            have e1 : 4 * (k + 1) + 1 = 4 * k + 1 + 3 + 1 := by omega
            have e2 : 4 * (k + 1) + 2 = 4 * k + 2 + 3 + 1 := by omega
            rw [e0] at hr
            rw [e1] at hg
            rw [e2] at hb
            simp only [List.getElem?_cons_succ] at hr hg hb
            obtain ⟨t1, h1, h2, h3, h4⟩ := ih rest out1 ho k (by omega) r g b hr hg hb
            refine ⟨t1, h1, ?_, ?_, ?_⟩
            · rw [e0]; simpa using h2
            · rw [e1]; simpa using h3
            · rw [e2]; simpa using h4
    | [], h => simp [mapPixels] at h
    | [_], h => simp [mapPixels] at h
    | [_, _], h => simp [mapPixels] at h
    | [_, _, _], h => simp [mapPixels] at h

end openshot

namespace openshot

theorem intToByte_constrain_val (x : Byte) : intToByte (constrain (x.val : Int)) = x := by
  have hx := x.isLt
  have h0 : ¬ ((x.val : Int) < 0) := by omega
  have h1 : ¬ ((x.val : Int) > 255) := by omega
  apply Fin.ext
  simp only [constrain, h0, h1, if_false, intToByte]
  omega

/-- The built-in table maps the colour read from three bytes to itself. -/
theorem C1DLUT.lookup_bytes (r g b : Byte) :
    C1DLUT.lookup ⟨(r.val : Int), (g.val : Int), (b.val : Int)⟩ =
      some ⟨(r.val : Int), (g.val : Int), (b.val : Int)⟩ := by
  have hr := r.isLt
  have hg := g.isLt
  have hb := b.isLt
  have eR := C1DLUT.compute_builtin (r.val : Int) (by omega) (by omega)
  have eG := C1DLUT.compute_builtin (g.val : Int) (by omega) (by omega)
  have eB := C1DLUT.compute_builtin (b.val : Int) (by omega) (by omega)
  unfold C1DLUT.lookup C1DLUT.IVW_R C1DLUT.IVW_G C1DLUT.IVW_B C1DLUT.MIN_R C1DLUT.MIN_G
    C1DLUT.MIN_B C1DLUT.MAX_R C1DLUT.MAX_G C1DLUT.MAX_B C1DLUT.R C1DLUT.G C1DLUT.B
  rw [eR, eG, eB]
  simp only [Option.some_bind]
  rw [floatToInt_intCast, floatToInt_intCast, floatToInt_intCast]

theorem pixelMap_c1d (r g b : Byte) : pixelMap ILUT.c1d r g b = some (r, g, b) := by
  unfold pixelMap
  have e : ILUT.c1d.lookup ⟨(r.val : Int), (g.val : Int), (b.val : Int)⟩ =
      some ⟨(r.val : Int), (g.val : Int), (b.val : Int)⟩ := C1DLUT.lookup_bytes r g b
  rw [e]
  simp only [Option.map_some', intToByte_constrain_val]

/-- With the built-in 1-D table the pixel-wise rewriting changes nothing. -/
theorem mapPixels_c1d (count : Nat) :
    ∀ pixels : List Byte, 4 * count ≤ pixels.length →
      mapPixels ILUT.c1d count pixels = some pixels := by
  induction count with
  | zero => intro pixels _; rfl
  | succ count ih =>
    intro pixels hlen
    match pixels, hlen with
    | r :: g :: b :: a :: rest, hlen =>
      have hrest : 4 * count ≤ rest.length := by
        simp only [List.length_cons] at hlen; omega
      unfold mapPixels
      rw [pixelMap_c1d, ih rest hrest]
      rfl
    | [], hlen => simp at hlen
    | [_], hlen => simp only [List.length_cons, List.length_nil] at hlen; omega
    | [_, _], hlen => simp only [List.length_cons, List.length_nil] at hlen; omega
    | [_, _, _], hlen => simp only [List.length_cons, List.length_nil] at hlen; omega

/-! ## Properties of the pixel loop and of `LUT::GetFrame` -/

/-- C6 (alpha untouched): on a buffer holding `width * height` four-byte pixels the
pixel loop of `LUT::GetFrame` finishes with a buffer of the same length in which the
byte at offset 3 of every pixel, and every byte behind the first
`4 * width * height`, has the value it had before; only offsets 0, 1 and 2 of the
pixels can differ. -/
theorem pixelLoop_alpha_untouched (lookUpTable : ILUT) (width height : Nat)
    (pixels : List Byte) (hlen : 4 * (width * height) ≤ pixels.length) :
    ∃ out, pixelLoop lookUpTable (width * height) 0 pixels = some out ∧
      out.length = pixels.length ∧
      ∀ j, (j % 4 = 3 ∨ 4 * (width * height) ≤ j) → out[j]? = pixels[j]? := by
  obtain ⟨out, hout⟩ :=
    Option.isSome_iff_exists.mp (mapPixels_isSome lookUpTable (width * height) pixels hlen)
  refine ⟨out, ?_, mapPixels_keeps lookUpTable (width * height) pixels out hout⟩
  rw [pixelLoop_eq_mapPixels lookUpTable (width * height) pixels hlen, hout]

theorem pixelLoop_alpha_untouched_witness :
    ∃ out, pixelLoop ILUT.c3d (1 * 1) 0 [10, 20, 30, 40, 50] = some out ∧
      out.length = ([10, 20, 30, 40, 50] : List Byte).length ∧
      ∀ j, (j % 4 = 3 ∨ 4 * (1 * 1) ≤ j) →
        out[j]? = ([10, 20, 30, 40, 50] : List Byte)[j]? :=
  pixelLoop_alpha_untouched ILUT.c3d 1 1 [10, 20, 30, 40, 50] (by decide)

/-- C7 (per-pixel independence): for buffers `a` and `b` whose lengths are multiples
of 4, the pixel loop on `a ++ b` gives the concatenation of its results on `a` and on
`b`; and in the result of the loop on any such buffer the three colour bytes of each
pixel are `pixelMap` of the three colour bytes of that pixel, whatever its position
and the other pixels. -/
theorem pixelLoop_independent (lookUpTable : ILUT) (a b : List Byte)
    (ha : a.length % 4 = 0) (hb : b.length % 4 = 0) :
    (∃ a1 b1, pixelLoop lookUpTable (a.length / 4) 0 a = some a1 ∧
      pixelLoop lookUpTable (b.length / 4) 0 b = some b1 ∧
      pixelLoop lookUpTable ((a ++ b).length / 4) 0 (a ++ b) = some (a1 ++ b1)) ∧
    (∀ out, pixelLoop lookUpTable (a.length / 4) 0 a = some out →
      ∀ k, k < a.length / 4 → ∀ r g c : Byte, a[4 * k]? = some r →
        a[4 * k + 1]? = some g → a[4 * k + 2]? = some c →
        ∃ t, pixelMap lookUpTable r g c = some t ∧ out[4 * k]? = some t.1 ∧
          out[4 * k + 1]? = some t.2.1 ∧ out[4 * k + 2]? = some t.2.2) := by
  have hla : 4 * (a.length / 4) ≤ a.length := by omega
  have hlb : 4 * (b.length / 4) ≤ b.length := by omega
  have hab : (a ++ b).length / 4 = a.length / 4 + b.length / 4 := by
    rw [List.length_append]; omega
  have hlab : 4 * (a.length / 4 + b.length / 4) ≤ (a ++ b).length := by
    rw [List.length_append]; omega
  constructor
  · obtain ⟨a1, h1⟩ :=
      Option.isSome_iff_exists.mp (mapPixels_isSome lookUpTable (a.length / 4) a hla)
    obtain ⟨b1, h2⟩ :=
      Option.isSome_iff_exists.mp (mapPixels_isSome lookUpTable (b.length / 4) b hlb)
    refine ⟨a1, b1, ?_, ?_, ?_⟩
    · rw [pixelLoop_eq_mapPixels lookUpTable _ a hla, h1]
    · rw [pixelLoop_eq_mapPixels lookUpTable _ b hlb, h2]
    · rw [hab, pixelLoop_eq_mapPixels lookUpTable _ (a ++ b) hlab,
        mapPixels_append lookUpTable _ _ a b (by omega), h1, h2]
      rfl
  · intro out hout
    rw [pixelLoop_eq_mapPixels lookUpTable _ a hla] at hout
    exact mapPixels_pixel lookUpTable _ a out hout

theorem pixelLoop_independent_witness :
    (∃ a1 b1, pixelLoop ILUT.c3d (([1, 2, 3, 4] : List Byte).length / 4) 0 [1, 2, 3, 4] =
        some a1 ∧
      pixelLoop ILUT.c3d (([5, 6, 7, 8] : List Byte).length / 4) 0 [5, 6, 7, 8] = some b1 ∧
      pixelLoop ILUT.c3d ((([1, 2, 3, 4] : List Byte) ++ [5, 6, 7, 8]).length / 4) 0
        ([1, 2, 3, 4] ++ [5, 6, 7, 8]) = some (a1 ++ b1)) ∧
    (∀ out, pixelLoop ILUT.c3d (([1, 2, 3, 4] : List Byte).length / 4) 0 [1, 2, 3, 4] =
        some out →
      ∀ k, k < ([1, 2, 3, 4] : List Byte).length / 4 → ∀ r g c : Byte,
        ([1, 2, 3, 4] : List Byte)[4 * k]? = some r →
        ([1, 2, 3, 4] : List Byte)[4 * k + 1]? = some g →
        ([1, 2, 3, 4] : List Byte)[4 * k + 2]? = some c →
        ∃ t, pixelMap ILUT.c3d r g c = some t ∧ out[4 * k]? = some t.1 ∧
          out[4 * k + 1]? = some t.2.1 ∧ out[4 * k + 2]? = some t.2.2) :=
  pixelLoop_independent ILUT.c3d [1, 2, 3, 4] [5, 6, 7, 8] (by decide) (by decide)

/-- C10 (end-to-end identity as coded): for every frame whose image buffer holds
`width * height` four-byte pixels (or that has no image), every frame number and every
intensity keyframe, the pixel loop with the table returned by `CUBEReader::read`
leaves the buffer as it was and `LUT::GetFrame` returns the frame unchanged; the
result is the same for every intensity keyframe. -/
theorem GetFrame_identity (fs : FileSystem) (lut : Keyframe) (frame : Frame)
    (frame_number : Int)
    (hbuf : ∀ img, frame.image = some img → 4 * (img.width * img.height) ≤ img.bits.length) :
    LUT.GetFrame fs lut frame frame_number = some frame ∧
    (∀ img lookUpTable, frame.image = some img →
      CUBEReader.read fs "lut.cube" = Except.ok lookUpTable →
      pixelLoop lookUpTable (img.width * img.height) 0 img.bits = some img.bits) ∧
    (∀ other : Keyframe,
      LUT.GetFrame fs other frame frame_number = LUT.GetFrame fs lut frame frame_number) := by
  refine ⟨?_, ?_, fun _ => rfl⟩
  · obtain ⟨image⟩ := frame
    cases image with
    | none => rfl
    | some img =>
      have h := hbuf img rfl
      obtain ⟨w, hgt, bits⟩ := img
      simp only [LUT.GetFrame, CUBEReader.read]
      rw [pixelLoop_eq_mapPixels ILUT.c1d _ bits h, mapPixels_c1d _ bits h]
      rfl
  · intro img lookUpTable himg hread
    have h := hbuf img himg
    simp only [CUBEReader.read, Except.ok.injEq] at hread
    subst hread
    rw [pixelLoop_eq_mapPixels ILUT.c1d _ img.bits h, mapPixels_c1d _ img.bits h]

theorem GetFrame_identity_witness :
    LUT.GetFrame (fun _ => none) ⟨fun _ => 1⟩ ⟨some ⟨1, 2, [0, 128, 255, 7, 9, 8, 7, 6]⟩⟩ 1 =
      some ⟨some ⟨1, 2, [0, 128, 255, 7, 9, 8, 7, 6]⟩⟩ ∧
    (∀ img lookUpTable,
      (⟨some ⟨1, 2, [0, 128, 255, 7, 9, 8, 7, 6]⟩⟩ : Frame).image = some img →
      CUBEReader.read (fun _ => none) "lut.cube" = Except.ok lookUpTable →
      pixelLoop lookUpTable (img.width * img.height) 0 img.bits = some img.bits) ∧
    (∀ other : Keyframe,
      LUT.GetFrame (fun _ => none) other ⟨some ⟨1, 2, [0, 128, 255, 7, 9, 8, 7, 6]⟩⟩ 1 =
        LUT.GetFrame (fun _ => none) ⟨fun _ => 1⟩
          ⟨some ⟨1, 2, [0, 128, 255, 7, 9, 8, 7, 6]⟩⟩ 1) :=
  GetFrame_identity (fun _ => none) ⟨fun _ => 1⟩
    ⟨some ⟨1, 2, [0, 128, 255, 7, 9, 8, 7, 6]⟩⟩ 1
    (by
      intro img himg
      simp only [Option.some.injEq] at himg
      subst himg
      decide)

end openshot

namespace openshot

/-! ## `C3DLUT::lookup` and `CUBEReader::read` -/

/-- The method `C3DLUT::lookup` takes no grid into account: its result is the colour
(0, 0, 0) for every input. -/
theorem C3DLUT.lookup_eq (rgb : RGB) : C3DLUT.lookup rgb = ⟨0, 0, 0⟩ :=
  rfl

/-- C9 (as amended): `CUBEReader::read` has no failing path; for every file system and
every path it returns the built-in 1-D table, neither a format failure nor an
input/output failure. -/
theorem CUBEReader.read_total (fs : FileSystem) (file : String) :
    CUBEReader.read fs file = Except.ok ILUT.c1d ∧
    (∀ e : ReadFailure, CUBEReader.read fs file ≠ Except.error e) := by
  refine ⟨rfl, ?_⟩
  intro e h
  simp [CUBEReader.read] at h

/-- C9 (as stated) fails: where `bad.cube` declares `LUT_1D_SIZE 4` with three data rows
and `missing.cube` does not exist, `CUBEReader::read` returns the built-in table for
both paths. -/
theorem CUBEReader.read_accepts_malformed :
    oneFile "bad.cube" shortCube "bad.cube" = some shortCube ∧
    CUBEReader.read (oneFile "bad.cube" shortCube) "bad.cube" = Except.ok ILUT.c1d ∧
    oneFile "bad.cube" shortCube "missing.cube" = none ∧
    CUBEReader.read (oneFile "bad.cube" shortCube) "missing.cube" = Except.ok ILUT.c1d := by
  refine ⟨?_, rfl, ?_, rfl⟩
  · simp [oneFile]
  · simp [oneFile]

end openshot

namespace openshot

/-! ## Rounded arithmetic at the upper end of the domain -/

theorem log_two_eq (q : ℚ) (e : Int) (h0 : 0 < q) (hlo : (2 : ℚ) ^ e ≤ q)
    (hhi : q < (2 : ℚ) ^ (e + 1)) : Int.log 2 q = e := by
  have h1 : e ≤ Int.log 2 q := by
    rw [← Int.zpow_le_iff_le_log (by norm_num) h0]
    exact_mod_cast hlo
  have h2 : Int.log 2 q < e + 1 := by
    rw [← Int.lt_zpow_iff_log_lt (by norm_num) h0]
    exact_mod_cast hhi
  omega

theorem roundHalfEven_below (x : ℚ) (f : Int) (hf : ⌊x⌋ = f) (h : x - (f : ℚ) < 1 / 2) :
    roundHalfEven x = f := by
  unfold roundHalfEven
  rw [hf, if_pos h]

theorem roundHalfEven_above (x : ℚ) (f : Int) (hf : ⌊x⌋ = f) (h : 1 / 2 < x - (f : ℚ)) :
    roundHalfEven x = f + 1 := by
  unfold roundHalfEven
  rw [hf, if_neg (not_lt.mpr h.le), if_pos h]

theorem binary32_of (q : ℚ) (e m : Int) (hq : 0 < q) (hlo : (2 : ℚ) ^ e ≤ q)
    (hhi : q < (2 : ℚ) ^ (e + 1)) (hm : roundHalfEven (q / 2 ^ (e - 23)) = m) :
    binary32 q = (m : ℚ) * 2 ^ (e - 23) := by
  unfold binary32
  rw [if_neg hq.ne', abs_of_pos hq, log_two_eq q e hq hlo hhi, hm]

theorem binary32_255 : binary32 255 = 255 := by
  have hm : roundHalfEven ((255 : ℚ) / 2 ^ ((7 : Int) - 23)) = 16711680 := by
    apply roundHalfEven_below
    · rw [Int.floor_eq_iff]; norm_num [zpow_neg]
    · norm_num [zpow_neg]
  rw [binary32_of 255 7 16711680 (by norm_num) (by norm_num) (by norm_num) hm]
  norm_num [zpow_neg]

theorem binary32_7 : binary32 7 = 7 := by
  have hm : roundHalfEven ((7 : ℚ) / 2 ^ ((2 : Int) - 23)) = 14680064 := by
    apply roundHalfEven_below
    · rw [Int.floor_eq_iff]; norm_num [zpow_neg]
    · norm_num [zpow_neg]
  rw [binary32_of 7 2 14680064 (by norm_num) (by norm_num) (by norm_num) hm]
  norm_num [zpow_neg]

theorem binary32_width : binary32 (255 / 7) = 9549531 / 262144 := by
  have hm : roundHalfEven ((255 / 7 : ℚ) / 2 ^ ((5 : Int) - 23)) = 9549531 := by
    apply roundHalfEven_below
    · rw [Int.floor_eq_iff]; norm_num [zpow_neg]
    · norm_num [zpow_neg]
  rw [binary32_of (255 / 7) 5 9549531 (by norm_num) (by norm_num) (by norm_num) hm]
  norm_num [zpow_neg]

theorem binary32_index : binary32 (255 / (9549531 / 262144)) = 14680065 / 2097152 := by
  have hm : roundHalfEven ((255 / (9549531 / 262144) : ℚ) / 2 ^ ((2 : Int) - 23)) =
      14680064 + 1 := by
    apply roundHalfEven_above
    · rw [Int.floor_eq_iff]; norm_num [zpow_neg]
    · norm_num [zpow_neg]
  rw [binary32_of (255 / (9549531 / 262144)) 2 (14680064 + 1) (by norm_num) (by norm_num)
    (by norm_num) hm]
  norm_num [zpow_neg]

end openshot

namespace openshot
namespace C1DLUT

/-- With no rounding the rounded functions are the exact ones. -/
theorem rounded_id (source n : Int) (a b min w : ℚ) (target : List ℚ) :
    intervalWidthRounded id a b n = intervalWidth a b n ∧
    readsRounded id source min w = reads source min w ∧
    computeRounded id source n min w target = compute source n min w target :=
  ⟨rfl, rfl, rfl⟩

/-- C4 (as stated) fails in `float` arithmetic: with N = 7 on the domain [0, 255] the
interval width `255 / 7` rounds to 9549531/262144, the source 255 = domain_max gets the
index 7 + 2^-21, so `i0 = 7`, `i1 = 8 > N`, and index 8 lies behind the 8 table
entries. -/
theorem compute_rounded_at_max :
    intervalWidthRounded binary32 0 255 7 = 9549531 / 262144 ∧
    readsRounded binary32 255 0 (intervalWidthRounded binary32 0 255 7) = [7, 8] ∧
    computeRounded binary32 255 7 0 (intervalWidthRounded binary32 0 255 7)
      [0, 1, 2, 3, 4, 5, 6, 7] = none := by
  have hw : intervalWidthRounded binary32 0 255 7 = 9549531 / 262144 := by
    unfold intervalWidthRounded
    simp only [sub_zero, Int.cast_ofNat]
    rw [binary32_255, binary32_7, binary32_width]
  have hi : binary32 (binary32 (binary32 ((255 : Int) : ℚ) - 0) / (9549531 / 262144)) =
      14680065 / 2097152 := by
    simp only [sub_zero, Int.cast_ofNat]
    rw [binary32_255, binary32_255, binary32_index]
  have hf : ⌊(14680065 / 2097152 : ℚ)⌋ = 7 := by
    rw [Int.floor_eq_iff]; norm_num
  have hc : ⌈(14680065 / 2097152 : ℚ)⌉ = 8 := by
    rw [Int.ceil_eq_iff]; norm_num
  refine ⟨hw, ?_, ?_⟩
  · rw [hw]
    unfold readsRounded
    simp only [hi, hf, hc]
    decide
  · rw [hw]
    unfold computeRounded
    simp only [hi, hf, hc]
    decide

end C1DLUT
end openshot

namespace openshot

theorem binary32_1 : binary32 1 = 1 := by
  have hm : roundHalfEven ((1 : ℚ) / 2 ^ ((0 : Int) - 23)) = 8388608 := by
    apply roundHalfEven_below
    · rw [Int.floor_eq_iff]; norm_num [zpow_neg]
    · norm_num [zpow_neg]
  rw [binary32_of 1 0 8388608 (by norm_num) (by norm_num) (by norm_num) hm]
  norm_num [zpow_neg]

namespace C1DLUT

/-- C3 (exact node): whatever the rounding `fl` of the `float` operations (none, or that
of binary32), when the index `i` that `compute` computes from `(source - min) /
intervalWidth` is an integer `k` with `0 ≤ k ≤ N`, `compute` on a table of `N + 1`
values returns the entry `table[k]` itself, without interpolation. -/
theorem computeRounded_exact_node (fl : ℚ → ℚ) (n : Int) (hn : 1 ≤ n) (min w : ℚ)
    (_hw : 0 < w) (table : List ℚ) (hlen : (table.length : Int) = n + 1) (source k : Int)
    (hk0 : 0 ≤ k) (hkn : k ≤ n)
    (hi : fl (fl (fl (source : ℚ) - min) / w) = (k : ℚ)) :
    ∃ v, table[k.toNat]? = some v ∧ computeRounded fl source n min w table = some v := by
  have hlt : k.toNat < table.length := by omega
  refine ⟨table.get ⟨k.toNat, hlt⟩, List.getElem?_eq_getElem hlt, ?_⟩
  unfold computeRounded
  simp only [hi, Int.floor_intCast, Int.ceil_intCast, if_true]
  exact readAt_of_bounds table k hk0 hlt

theorem computeRounded_exact_node_witness :
    ∃ v, ([0, 255] : List ℚ)[(1 : Int).toNat]? = some v ∧
      computeRounded binary32 255 1 0 255 [0, 255] = some v :=
  computeRounded_exact_node binary32 1 (by decide) 0 255 (by norm_num) [0, 255] (by decide)
    255 1 (by decide) (by decide)
    (by
      simp only [Int.cast_ofNat, sub_zero, Int.cast_one]
      rw [binary32_255, binary32_255]
      norm_num
      exact binary32_1)

end C1DLUT
end openshot
